import Mathlib

/-!
Verification of the core rendering pipeline of a sphere path tracer.

The development shallowly embeds the Rust sources:
  src/main.rs      (`Ray`, `Color`, `ray_color`)
  src/hittable.rs  (`HitRecord`, `Sphere`, `Vec<H>` aggregation)
  src/material.rs  (`Lambertian`, `Metal`, `Dielectric`, samplers)
  src/camera.rs    (`Camera`)
`f64` values are modelled as exact real numbers, and every random draw is
passed in explicitly as an oracle argument (the accepted sample of the
corresponding rejection loop, or the uniform double), so each scattering
function is a deterministic function of its random inputs.
-/

noncomputable section
open Classical

/-- A 3-component vector over the reals, standing in for `cgmath::Vector3<f64>`
(and for `Point3<f64>`, which the source only uses through affine
differences that behave identically). -/
structure Vec3 where
  x : ℝ
  y : ℝ
  z : ℝ

namespace Vec3

instance : Add Vec3 := ⟨fun a b => ⟨a.x + b.x, a.y + b.y, a.z + b.z⟩⟩

instance : Sub Vec3 := ⟨fun a b => ⟨a.x - b.x, a.y - b.y, a.z - b.z⟩⟩

instance : Neg Vec3 := ⟨fun a => ⟨-a.x, -a.y, -a.z⟩⟩

instance : SMul ℝ Vec3 := ⟨fun c a => ⟨c * a.x, c * a.y, c * a.z⟩⟩

@[simp] theorem add_x (a b : Vec3) : (a + b).x = a.x + b.x := rfl

@[simp] theorem add_y (a b : Vec3) : (a + b).y = a.y + b.y := rfl

@[simp] theorem add_z (a b : Vec3) : (a + b).z = a.z + b.z := rfl

@[simp] theorem sub_x (a b : Vec3) : (a - b).x = a.x - b.x := rfl

@[simp] theorem sub_y (a b : Vec3) : (a - b).y = a.y - b.y := rfl

@[simp] theorem sub_z (a b : Vec3) : (a - b).z = a.z - b.z := rfl

@[simp] theorem neg_x (a : Vec3) : (-a).x = -a.x := rfl

@[simp] theorem neg_y (a : Vec3) : (-a).y = -a.y := rfl

@[simp] theorem neg_z (a : Vec3) : (-a).z = -a.z := rfl

@[simp] theorem smul_x (c : ℝ) (a : Vec3) : (c • a).x = c * a.x := rfl

@[simp] theorem smul_y (c : ℝ) (a : Vec3) : (c • a).y = c * a.y := rfl

@[simp] theorem smul_z (c : ℝ) (a : Vec3) : (c • a).z = c * a.z := rfl

/-- Embeds `InnerSpace::dot` of cgmath. -/
def dot (a b : Vec3) : ℝ := a.x * b.x + a.y * b.y + a.z * b.z

/-- Embeds `ElementWise::mul_element_wise` of cgmath. -/
def mulElementWise (a b : Vec3) : Vec3 := ⟨a.x * b.x, a.y * b.y, a.z * b.z⟩

/-- Cross product, `Vector3::cross` of cgmath. -/
def cross (a b : Vec3) : Vec3 :=
  ⟨a.y * b.z - a.z * b.y, a.z * b.x - a.x * b.z, a.x * b.y - a.y * b.x⟩

/-- Embeds `InnerSpace::magnitude` of cgmath: the euclidean length. -/
def length (a : Vec3) : ℝ := Real.sqrt (a.dot a)

/-- Embeds `InnerSpace::normalize` of cgmath: `self * (1 / magnitude)`. -/
def normalize (a : Vec3) : Vec3 := (1 / a.length) • a

@[simp] theorem dot_def (a b : Vec3) :
    a.dot b = a.x * b.x + a.y * b.y + a.z * b.z := rfl

@[simp] theorem mulElementWise_def (a b : Vec3) :
    a.mulElementWise b = ⟨a.x * b.x, a.y * b.y, a.z * b.z⟩ := rfl

end Vec3

/-- Embeds `Ray` from src/main.rs. -/
structure Ray where
  origin : Vec3
  direction : Vec3

/-- Embeds `Ray::at`: `origin + t * direction`. -/
def Ray.pointAt (r : Ray) (t : ℝ) : Vec3 := r.origin + t • r.direction

/-- Embeds `pub type Color = Vector3<f64>` from src/main.rs. -/
abbrev Color := Vec3

/-- The `Metal` material struct from src/material.rs (the `rng` handle is
modelled by passing random samples to `scatter` explicitly). -/
structure Metal where
  albedo : Color
  fuzz : ℝ

/-- Embeds `Metal::new` from src/material.rs: stores `fuzz.min(1.0)`. -/
def Metal.new (albedo : Color) (fuzz : ℝ) : Metal :=
  { albedo := albedo, fuzz := min fuzz 1 }

/-- The closed set of material kinds of src/material.rs (the `Material`
enumeration used by src/main.rs). -/
inductive Material where
  | lambertian (albedo : Color)
  | metal (m : Metal)
  | dielectric (indexOfRefraction : ℝ)

/-- Embeds `Material::new_lambertian` as used by src/main.rs. -/
def Material.new_lambertian (albedo : Color) : Material := .lambertian albedo

/-- Embeds `Material::new_metal` as used by src/main.rs, constructing via `Metal::new`. -/
def Material.new_metal (albedo : Color) (fuzz : ℝ) : Material :=
  .metal (Metal.new albedo fuzz)

/-- Embeds `Material::new_dielectric` as used by src/main.rs. -/
def Material.new_dielectric (indexOfRefraction : ℝ) : Material :=
  .dielectric indexOfRefraction

/-- Embeds `HitRecord` from src/hittable.rs. -/
structure HitRecord where
  p : Vec3
  normal : Vec3
  material : Material
  t : ℝ
  front_face : Prop

/-- Embeds `f64::EPSILON` = 2⁻⁵². -/
def f64Epsilon : ℝ := 1 / 2 ^ 52

/-- cgmath `AbsDiffEq` for `Vector3` against `Vector3::zero()`:
every component is within `eps` of zero. -/
def absDiffEqZero (v : Vec3) (eps : ℝ) : Prop :=
  |v.x| ≤ eps ∧ |v.y| ≤ eps ∧ |v.z| ≤ eps

/-- The set of samples the rejection loop `random_vector_in_unit_sphere`
(src/material.rs) can accept: each coordinate is drawn from
`Uniform::from(0.0..1.0)` and the vector is kept when `x²+y²+z² ≤ 1`. -/
def inUnitSphereSample (v : Vec3) : Prop :=
  0 ≤ v.x ∧ v.x < 1 ∧ 0 ≤ v.y ∧ v.y < 1 ∧ 0 ≤ v.z ∧ v.z < 1 ∧
    v.x * v.x + v.y * v.y + v.z * v.z ≤ 1

/-- Embeds `random_unit_vector` from src/material.rs, as a function of the accepted
sample of `random_vector_in_unit_sphere`: it normalizes that sample. -/
def random_unit_vector (sample : Vec3) : Vec3 := sample.normalize

/-- Modelled from the spec (§4.3): the values a "vector drawn uniformly from
the unit sphere, then normalized" can take, i.e. the normalization of an
arbitrary vector of the unit ball. Used to compare the spec's description of
`random_unit_vector` with the code's sampler. -/
def specUnitSphereDrawNormalized (u : Vec3) : Prop :=
  ∃ v : Vec3, v.dot v ≤ 1 ∧ u = v.normalize

/-- The mirror reflection computed by `Metal::scatter` and by the reflect
branch of `Dielectric::scatter` (src/material.rs):
`d' - 2 (d'·n) n` for the normalized incoming direction `d'`. -/
def reflectDirection (ray : Ray) (record : HitRecord) : Vec3 :=
  ray.direction.normalize -
    (2 * ray.direction.normalize.dot record.normal) • record.normal

/-- Embeds `Lambertian::scatter` from src/material.rs, with the accepted sample of
`random_vector_in_unit_sphere` passed in as `sample`. -/
def Lambertian.scatter (albedo : Color) (_ray : Ray) (record : HitRecord)
    (sample : Vec3) : Option (Ray × Color) :=
  let ruv := random_unit_vector sample
  let direction := record.normal + ruv
  let direction :=
    if absDiffEqZero direction f64Epsilon then record.normal else direction
  some (Ray.mk record.p direction, albedo)

/-- Embeds `Metal::scatter` from src/material.rs, with the accepted sample of
`random_vector_in_unit_sphere` passed in as `sample`. -/
def Metal.scatter (m : Metal) (ray : Ray) (record : HitRecord)
    (sample : Vec3) : Option (Ray × Color) :=
  let reflected := reflectDirection ray record
  if reflected.dot record.normal > 0 then
    some (Ray.mk record.p (reflected + m.fuzz • sample), m.albedo)
  else
    none

/-- Embeds `let refraction_ratio = if record.front_face { 1.0 / index } else { index }`
in `Dielectric::scatter`. -/
def refractionRatio (indexOfRefraction : ℝ) (record : HitRecord) : ℝ :=
  if record.front_face then 1 / indexOfRefraction else indexOfRefraction

/-- Embeds `let cos = (-direction.dot(record.normal)).min(1.0).max(-1.0)` in
`Dielectric::scatter`, for the normalized ray direction. -/
def dielectricCos (ray : Ray) (record : HitRecord) : ℝ :=
  max (min (-(ray.direction.normalize.dot record.normal)) 1) (-1)

/-- Embeds `let sin = (1.0 - cos * cos).sqrt()` in `Dielectric::scatter`. -/
def dielectricSin (ray : Ray) (record : HitRecord) : ℝ :=
  Real.sqrt (1 - dielectricCos ray record * dielectricCos ray record)

/-- The Schlick `reflectance` block of `Dielectric::scatter`:
`r0 + (1 - r0) * (1 - cos)^5` with `r0 = ((1 - ratio) / (1 + ratio))²`. -/
def schlickReflectance (indexOfRefraction : ℝ) (ray : Ray)
    (record : HitRecord) : ℝ :=
  let r0 := (1 - refractionRatio indexOfRefraction record) /
    (1 + refractionRatio indexOfRefraction record)
  let r0 := r0 * r0
  r0 + (1 - r0) * (1 - dielectricCos ray record) ^ 5

/-- The Snell refraction branch of `Dielectric::scatter`:
`perp = ratio * (direction + cos * normal)`,
`parallel = -sqrt(|1 - perp·perp|) * normal`, result `perp + parallel`. -/
def refractDirection (indexOfRefraction : ℝ) (ray : Ray)
    (record : HitRecord) : Vec3 :=
  let perp := refractionRatio indexOfRefraction record •
    (ray.direction.normalize + dielectricCos ray record • record.normal)
  let parallel := (-(Real.sqrt |1 - perp.dot perp|)) • record.normal
  perp + parallel

/-- Embeds `Dielectric::scatter` from src/material.rs, with the uniform draw of
`random_double()` passed in as `rnd`. -/
def Dielectric.scatter (indexOfRefraction : ℝ) (ray : Ray)
    (record : HitRecord) (rnd : ℝ) : Option (Ray × Color) :=
  let outDirection :=
    if refractionRatio indexOfRefraction record * dielectricSin ray record > 1 ∨
        schlickReflectance indexOfRefraction ray record > rnd then
      reflectDirection ray record
    else
      refractDirection indexOfRefraction ray record
  some (Ray.mk record.p outDirection, (⟨1, 1, 1⟩ : Color))

/-- The random values one `Material::scatter` call consumes: the accepted
in-unit-sphere sample and the uniform double. -/
structure RandomInput where
  vec : Vec3
  double : ℝ

/-- Dispatch of `scatter` over the material kinds. -/
def Material.scatter : Material → Ray → HitRecord → RandomInput → Option (Ray × Color)
  | .lambertian albedo, ray, record, rand => Lambertian.scatter albedo ray record rand.vec
  | .metal m, ray, record, rand => Metal.scatter m ray record rand.vec
  | .dielectric ior, ray, record, rand => Dielectric.scatter ior ray record rand.double

/-- A parametric query interval, standing in for the `RangeBounds<f64>`
argument of `Hittable::hit`; only its `contains` test is observable. -/
structure TRange where
  contains : ℝ → Prop

/-- The Rust range `lo..` (`RangeFrom`): contains `t` iff `lo ≤ t`. -/
def rangeFrom (lo : ℝ) : TRange := ⟨fun t => lo ≤ t⟩

/-- Embeds `Sphere` from src/hittable.rs. -/
structure Sphere where
  center : Vec3
  radius : ℝ
  material : Material

/-- Embeds `let a = ray.direction.dot(ray.direction)` in `Sphere::hit`. -/
def hitA (_s : Sphere) (ray : Ray) : ℝ := ray.direction.dot ray.direction

/-- Embeds `let half_b = vec_from_center.dot(ray.direction)` in `Sphere::hit`,
with `vec_from_center = ray.origin - self.center`. -/
def hitHalfB (s : Sphere) (ray : Ray) : ℝ :=
  (ray.origin - s.center).dot ray.direction

/-- Embeds `let c = vec_from_center.dot(vec_from_center) - radius * radius`. -/
def hitC (s : Sphere) (ray : Ray) : ℝ :=
  (ray.origin - s.center).dot (ray.origin - s.center) - s.radius * s.radius

/-- Embeds `let discriminant = half_b * half_b - a * c`. -/
def hitDiscriminant (s : Sphere) (ray : Ray) : ℝ :=
  hitHalfB s ray * hitHalfB s ray - hitA s ray * hitC s ray

/-- The smaller quadratic root `(-half_b - sqrt(discriminant)) / a`. -/
def hitRoot1 (s : Sphere) (ray : Ray) : ℝ :=
  (-hitHalfB s ray - Real.sqrt (hitDiscriminant s ray)) / hitA s ray

/-- The larger quadratic root `(-half_b + sqrt(discriminant)) / a`. -/
def hitRoot2 (s : Sphere) (ray : Ray) : ℝ :=
  (-hitHalfB s ray + Real.sqrt (hitDiscriminant s ray)) / hitA s ray

/-- The `HitRecord` that `Sphere::hit` builds for an accepted root `t`
(the block duplicated for both roots in src/hittable.rs lines 55-65/69-79):
`p = ray.at(t)`, `normal = (p - center) / radius`, with the normal flipped
when it does not oppose the ray direction. -/
def Sphere.hitRecordAt (s : Sphere) (ray : Ray) (t : ℝ) : HitRecord :=
  let p := ray.pointAt t
  let normal := (1 / s.radius) • (p - s.center)
  let front_face := ray.direction.dot ((1 / s.radius) • (p - s.center)) < 0
  { p := p
    normal := if front_face then normal else -normal
    material := s.material
    t := t
    front_face := front_face }

/-- Embeds `Sphere::hit` from src/hittable.rs. -/
def Sphere.hit (s : Sphere) (ray : Ray) (tRange : TRange) : Option HitRecord :=
  if hitDiscriminant s ray < 0 then
    none
  else if tRange.contains (hitRoot1 s ray) then
    some (s.hitRecordAt ray (hitRoot1 s ray))
  else if tRange.contains (hitRoot2 s ray) then
    some (s.hitRecordAt ray (hitRoot2 s ray))
  else
    none

/-- Embeds `cmp::min_by` on the `t` field, as used through
`min_by(|a, b| a.t.partial_cmp(&b.t))` in src/hittable.rs: keeps the left
(earlier) record unless the right one is strictly smaller. -/
def minByFold (a b : HitRecord) : HitRecord :=
  if a.t > b.t then b else a

/-- Embeds `Iterator::min_by` over a list of hit records: `reduce`-style fold that
returns the first record attaining the minimal `t` (ties keep the earlier
element), or `none` on the empty list. -/
def minByFirst : List HitRecord → Option HitRecord
  | [] => none
  | h :: t => some (t.foldl minByFold h)

/-- Embeds `impl<H: Hittable> Hittable for Vec<H>` from src/hittable.rs:
`filter_map` the per-member hits, then `min_by` on `t`. -/
def listHit {H : Type} (hitF : H → Ray → TRange → Option HitRecord)
    (hittables : List H) (ray : Ray) (tRange : TRange) : Option HitRecord :=
  minByFirst (hittables.filterMap (fun h => hitF h ray tRange))

/-- The sky gradient of `ray_color` (src/main.rs lines 54-56):
`t = (unit_direction.y + 1) / 2`, result `(1-t)·(1,1,1) + t·(0.5,0.7,1.0)`. -/
def skyColor (ray : Ray) : Color :=
  ((1 : ℝ) - (ray.direction.normalize.y + 1) / 2) • (⟨1, 1, 1⟩ : Color) +
    ((ray.direction.normalize.y + 1) / 2) • (⟨1 / 2, 7 / 10, 1⟩ : Color)

/-- The stack of colors pushed by the loop of `ray_color` (src/main.rs):
one attenuation per bounce, closed by black (depth exhausted or absorption)
or by the sky color (miss).  The scene is any hittable, given by `hitF`
applied to `world`; `rng k` supplies the random values of the `k`-th
scatter call. -/
def rayColorStack {W : Type} (hitF : W → Ray → TRange → Option HitRecord)
    (world : W) (rng : ℕ → RandomInput) : Ray → ℕ → ℕ → List Color
  | _, 0, _ => [⟨0, 0, 0⟩]
  | ray, depth + 1, k =>
    match hitF world ray (rangeFrom 0.001) with
    | some record =>
      match record.material.scatter ray record (rng k) with
      | some (scattered, attenuation) =>
        attenuation :: rayColorStack hitF world rng scattered depth (k + 1)
      | none => [⟨0, 0, 0⟩]
    | none => [skyColor ray]

/-- Embeds `ray_color` from src/main.rs: build the stack, then `rfold` it from the
right with element-wise multiplication starting from `(1,1,1)`. -/
def rayColor {W : Type} (hitF : W → Ray → TRange → Option HitRecord)
    (world : W) (rng : ℕ → RandomInput) (ray : Ray) (depth k : ℕ) : Color :=
  (rayColorStack hitF world rng ray depth k).foldr
    (fun color acc => color.mulElementWise acc) ⟨1, 1, 1⟩

/-- Modelled from the spec (§4.5): the recursive formulation of the path
integrator.  Depth 0 gives black; a miss gives the sky color; absorption
gives black; a scatter recurses with depth decremented and multiplies by the
attenuation element-wise. -/
def traceRec {W : Type} (hitF : W → Ray → TRange → Option HitRecord)
    (world : W) (rng : ℕ → RandomInput) : Ray → ℕ → ℕ → Color
  | _, 0, _ => ⟨0, 0, 0⟩
  | ray, depth + 1, k =>
    match hitF world ray (rangeFrom 0.001) with
    | some record =>
      match record.material.scatter ray record (rng k) with
      | some (scattered, attenuation) =>
        attenuation.mulElementWise (traceRec hitF world rng scattered depth (k + 1))
      | none => ⟨0, 0, 0⟩
    | none => skyColor ray

/-- Embeds `Camera` from src/camera.rs. -/
structure Camera where
  origin : Vec3
  lower_left_corner : Vec3
  horizontal : Vec3
  vertical : Vec3
  u : Vec3
  v : Vec3
  lens_radius : ℝ

/-- Embeds `Camera::new` from src/camera.rs. -/
def Camera.new (position lookAt up : Vec3)
    (verticalFov aspectRatio aperture focusDistance : ℝ) : Camera :=
  let theta := verticalFov * Real.pi / 180
  let h := Real.tan (theta / 2)
  let viewportHeight := 2 * h
  let viewportWidth := aspectRatio * viewportHeight
  let w := (position - lookAt).normalize
  let u := (up.cross w).normalize
  let v := w.cross u
  let origin := position
  let horizontal := (focusDistance * viewportWidth) • u
  let vertical := (focusDistance * viewportHeight) • v
  let lowerLeftCorner :=
    origin - (1 / 2 : ℝ) • horizontal - (1 / 2 : ℝ) • vertical - focusDistance • w
  let lensRadius := aperture / 2
  { origin := origin
    lower_left_corner := lowerLeftCorner
    horizontal := horizontal
    vertical := vertical
    u := u
    v := v
    lens_radius := lensRadius }

/-- Embeds `Camera::ray` from src/camera.rs, with the accepted sample of
`random_vector_in_unit_disk` passed in as `diskSample`. -/
def Camera.ray (c : Camera) (s t : ℝ) (diskSample : Vec3) : Ray :=
  let rd := c.lens_radius • diskSample
  let offset := rd.x • c.u + rd.y • c.v
  Ray.mk (c.origin + offset)
    (c.lower_left_corner + s • c.horizontal + t • c.vertical - c.origin - offset)

theorem Vec3.ext3 {a b : Vec3} (hx : a.x = b.x) (hy : a.y = b.y)
    (hz : a.z = b.z) : a = b := by
  cases a
  cases b
  simp_all

theorem Vec3.mulElementWise_one (v : Vec3) :
    v.mulElementWise ⟨1, 1, 1⟩ = v := by
  cases v
  simp

theorem Vec3.zero_mulElementWise (v : Vec3) :
    (⟨0, 0, 0⟩ : Vec3).mulElementWise v = ⟨0, 0, 0⟩ := by
  simp

theorem Vec3.normalize_of_unit {v : Vec3} (h : v.dot v = 1) :
    v.normalize = v := by
  unfold Vec3.normalize Vec3.length
  rw [h, Real.sqrt_one]
  apply Vec3.ext3 <;> norm_num

theorem realSqrtEval {a b : ℝ} (hb : 0 ≤ b) (h : b ^ 2 = a) :
    Real.sqrt a = b := by
  rw [← h, Real.sqrt_sq hb]

/-- Claim C10: `Metal::new` stores `fuzz = min(given fuzz, 1.0)`; the stored
fuzz never exceeds 1, and arguments below 0 are stored unchanged (there is
no lower clamp). -/
theorem metal_new_fuzz_clamp (albedo : Color) (fuzz : ℝ) :
    (Metal.new albedo fuzz).fuzz = min fuzz 1 ∧
    (Metal.new albedo fuzz).fuzz ≤ 1 ∧
    (fuzz < 0 → (Metal.new albedo fuzz).fuzz = fuzz) := by
  refine ⟨rfl, min_le_right _ _, fun h => ?_⟩
  show min fuzz 1 = fuzz
  exact min_eq_left (h.le.trans zero_le_one)

theorem metal_new_fuzz_clamp_witness :
    (Metal.new ⟨1, 1, 1⟩ (-2)).fuzz = -2 ∧ (Metal.new ⟨1, 1, 1⟩ 3).fuzz ≤ 1 :=
  ⟨(metal_new_fuzz_clamp ⟨1, 1, 1⟩ (-2)).2.2 (by norm_num),
    (metal_new_fuzz_clamp ⟨1, 1, 1⟩ 3).2.1⟩

/-- Claim C9: for every camera, screen coordinates and lens-disk sample, the
generated ray evaluated at parameter 1 lands on
`lower_left_corner + s·horizontal + t·vertical`, independent of the sampled
disk point; and with `aperture = 0` the lens radius is 0 and the ray origin
is always the camera position. -/
theorem camera_ray_focus_plane_spec :
    (∀ (c : Camera) (s t : ℝ) (diskSample : Vec3),
      (c.ray s t diskSample).pointAt 1 =
        c.lower_left_corner + s • c.horizontal + t • c.vertical) ∧
    (∀ (position lookAt up : Vec3)
      (verticalFov aspectRatio focusDistance s t : ℝ) (diskSample : Vec3),
      (Camera.new position lookAt up verticalFov aspectRatio 0
          focusDistance).lens_radius = 0 ∧
      ((Camera.new position lookAt up verticalFov aspectRatio 0
          focusDistance).ray s t diskSample).origin = position) := by
  refine ⟨fun c s t diskSample => ?_,
    fun position lookAt up verticalFov aspectRatio focusDistance s t
      diskSample => ⟨?_, ?_⟩⟩
  · apply Vec3.ext3 <;> simp [Camera.ray, Ray.pointAt]
  · simp [Camera.new]
  · apply Vec3.ext3 <;> simp [Camera.new, Camera.ray]

/-- Claim C1 (amended): `Metal::scatter` returns `none` exactly when the
UNperturbed mirror reflection of the normalized incoming direction points
into the surface (`reflected·normal ≤ 0`); the fuzz perturbation is added
after that test, and when a ray is returned its direction is
`reflected + fuzz·sample` and the attenuation is the metal's albedo. -/
theorem metal_scatter_spec (m : Metal) (ray : Ray) (record : HitRecord)
    (sample : Vec3) :
    (Metal.scatter m ray record sample = none ↔
      (reflectDirection ray record).dot record.normal ≤ 0) ∧
    (∀ scattered attenuation,
      Metal.scatter m ray record sample = some (scattered, attenuation) →
      attenuation = m.albedo ∧
      scattered = Ray.mk record.p
        (reflectDirection ray record + m.fuzz • sample)) := by
  unfold Metal.scatter
  by_cases h : (reflectDirection ray record).dot record.normal > 0
  · rw [if_pos h]
    refine ⟨⟨fun hc => absurd hc (by simp), fun hc => absurd h (not_lt.mpr hc)⟩,
      fun scattered attenuation hc => ?_⟩
    rw [Option.some.injEq, Prod.mk.injEq] at hc
    exact ⟨hc.2.symm, hc.1.symm⟩
  · rw [if_neg h]
    exact ⟨⟨fun _ => not_lt.mp h, fun _ => rfl⟩,
      fun scattered attenuation hc => absurd hc (by simp)⟩

theorem metal_scatter_spec_witness :
    Metal.scatter (Metal.new ⟨1, 0, 0⟩ 0) (Ray.mk ⟨0, 0, 0⟩ ⟨0, 0, -1⟩)
        { p := ⟨0, 0, 0⟩, normal := ⟨0, 0, 1⟩,
          material := Material.new_metal ⟨1, 0, 0⟩ 0, t := 1,
          front_face := True } ⟨0, 0, 0⟩ =
      some (Ray.mk ⟨0, 0, 0⟩ ⟨0, 0, 1⟩, ⟨1, 0, 0⟩) ∧
    (⟨1, 0, 0⟩ : Color) = (Metal.new ⟨1, 0, 0⟩ 0).albedo := by
  have hn : (⟨0, 0, -1⟩ : Vec3).normalize = ⟨0, 0, -1⟩ :=
    Vec3.normalize_of_unit (by norm_num)
  have hrefl : reflectDirection (Ray.mk ⟨0, 0, 0⟩ ⟨0, 0, -1⟩)
      { p := ⟨0, 0, 0⟩, normal := ⟨0, 0, 1⟩,
        material := Material.new_metal ⟨1, 0, 0⟩ 0, t := 1,
        front_face := True } = ⟨0, 0, 1⟩ := by
    unfold reflectDirection
    rw [show (Ray.mk (⟨0, 0, 0⟩ : Vec3) ⟨0, 0, -1⟩).direction =
      (⟨0, 0, -1⟩ : Vec3) from rfl, hn]
    apply Vec3.ext3 <;> norm_num
  have heval : Metal.scatter (Metal.new ⟨1, 0, 0⟩ 0)
      (Ray.mk ⟨0, 0, 0⟩ ⟨0, 0, -1⟩)
      { p := ⟨0, 0, 0⟩, normal := ⟨0, 0, 1⟩,
        material := Material.new_metal ⟨1, 0, 0⟩ 0, t := 1,
        front_face := True } ⟨0, 0, 0⟩ =
      some (Ray.mk ⟨0, 0, 0⟩ ⟨0, 0, 1⟩, ⟨1, 0, 0⟩) := by
    unfold Metal.scatter
    rw [hrefl, if_pos (by norm_num)]
    refine congrArg some (Prod.ext ?_ rfl)
    refine congrArg (Ray.mk ⟨0, 0, 0⟩) ?_
    apply Vec3.ext3 <;> simp [Metal.new]
  exact ⟨heval, ((metal_scatter_spec _ _ _ _).2 _ _ heval).1.symm⟩

/-- Claim C1 (counterexample): with fuzz 1, a shallow reflection and the
in-unit-sphere sample `(0, 0, 9/10)`, the perturbed reflection direction
satisfies `perturbed·normal ≤ 0` (it points into the surface), yet
`Metal::scatter` still returns a scattered ray, because the code tests the
unperturbed reflection before adding the fuzz term. -/
theorem metal_scatter_counterexample :
    Metal.scatter (Metal.new ⟨1, 1, 1⟩ 1)
        (Ray.mk ⟨0, 0, 0⟩ ⟨3 / 5, 0, 4 / 5⟩)
        { p := ⟨0, 0, 0⟩, normal := ⟨0, 0, -1⟩,
          material := Material.new_metal ⟨1, 1, 1⟩ 1, t := 1,
          front_face := True } ⟨0, 0, 9 / 10⟩ =
      some (Ray.mk ⟨0, 0, 0⟩ ⟨3 / 5, 0, 1 / 10⟩, ⟨1, 1, 1⟩) ∧
    inUnitSphereSample ⟨0, 0, 9 / 10⟩ ∧
    (⟨3 / 5, 0, 1 / 10⟩ : Vec3).dot ⟨0, 0, -1⟩ ≤ 0 := by
  have hn : (⟨3 / 5, 0, 4 / 5⟩ : Vec3).normalize = ⟨3 / 5, 0, 4 / 5⟩ :=
    Vec3.normalize_of_unit (by norm_num)
  have hrefl : reflectDirection (Ray.mk ⟨0, 0, 0⟩ ⟨3 / 5, 0, 4 / 5⟩)
      { p := ⟨0, 0, 0⟩, normal := ⟨0, 0, -1⟩,
        material := Material.new_metal ⟨1, 1, 1⟩ 1, t := 1,
        front_face := True } = ⟨3 / 5, 0, -(4 / 5)⟩ := by
    unfold reflectDirection
    rw [show (Ray.mk (⟨0, 0, 0⟩ : Vec3) ⟨3 / 5, 0, 4 / 5⟩).direction =
      (⟨3 / 5, 0, 4 / 5⟩ : Vec3) from rfl, hn]
    apply Vec3.ext3 <;> norm_num
  refine ⟨?_, by unfold inUnitSphereSample; norm_num, by norm_num⟩
  unfold Metal.scatter
  rw [hrefl, if_pos (by norm_num)]
  refine congrArg some (Prod.ext ?_ rfl)
  refine congrArg (Ray.mk ⟨0, 0, 0⟩) ?_
  apply Vec3.ext3 <;> norm_num [Metal.new]

/-- Claim C4 (amended): `Lambertian::scatter` never returns `none`: the
scattered direction is `normal + random_unit_vector(sample)` with a
fallback to the normal itself when that sum is within `f64::EPSILON` of
zero componentwise, and the attenuation is always the albedo.  However the
sampler only draws from the part of the unit ball with all components in
`[0, 1)`, so every produced unit vector has nonnegative components. -/
theorem lambertian_scatter_spec (albedo : Color) (ray : Ray)
    (record : HitRecord) (sample : Vec3) :
    Lambertian.scatter albedo ray record sample =
      some (Ray.mk record.p
        (if absDiffEqZero (record.normal + random_unit_vector sample)
            f64Epsilon
         then record.normal
         else record.normal + random_unit_vector sample), albedo) ∧
    (inUnitSphereSample sample →
      0 ≤ (random_unit_vector sample).x ∧
      0 ≤ (random_unit_vector sample).y ∧
      0 ≤ (random_unit_vector sample).z) := by
  refine ⟨rfl, fun hs => ?_⟩
  have hlen : 0 ≤ 1 / sample.length :=
    one_div_nonneg.mpr (Real.sqrt_nonneg _)
  exact ⟨mul_nonneg hlen hs.1, mul_nonneg hlen hs.2.2.1,
    mul_nonneg hlen hs.2.2.2.2.1⟩

theorem lambertian_scatter_spec_witness :
    Lambertian.scatter ⟨1, 0, 0⟩ (Ray.mk ⟨0, 0, 0⟩ ⟨0, 0, -1⟩)
        { p := ⟨0, 0, 0⟩, normal := ⟨0, 0, 1⟩,
          material := Material.new_lambertian ⟨1, 0, 0⟩, t := 1,
          front_face := True } ⟨1 / 2, 0, 0⟩ =
      some (Ray.mk ⟨0, 0, 0⟩ ⟨1, 0, 1⟩, ⟨1, 0, 0⟩) ∧
    0 ≤ (random_unit_vector ⟨1 / 2, 0, 0⟩).x := by
  have hsample : inUnitSphereSample ⟨1 / 2, 0, 0⟩ := by
    unfold inUnitSphereSample
    norm_num
  have hnorm : random_unit_vector ⟨1 / 2, 0, 0⟩ = ⟨1, 0, 0⟩ := by
    unfold random_unit_vector Vec3.normalize Vec3.length
    rw [show ((⟨1 / 2, 0, 0⟩ : Vec3).dot ⟨1 / 2, 0, 0⟩) = (1 / 2 : ℝ) ^ 2 by
      norm_num, Real.sqrt_sq (by norm_num)]
    apply Vec3.ext3 <;> norm_num
  constructor
  · rw [(lambertian_scatter_spec ⟨1, 0, 0⟩ (Ray.mk ⟨0, 0, 0⟩ ⟨0, 0, -1⟩)
      { p := ⟨0, 0, 0⟩, normal := ⟨0, 0, 1⟩,
        material := Material.new_lambertian ⟨1, 0, 0⟩, t := 1,
        front_face := True } ⟨1 / 2, 0, 0⟩).1, hnorm]
    have hne : ¬ absDiffEqZero ((⟨0, 0, 1⟩ : Vec3) + ⟨1, 0, 0⟩) f64Epsilon := by
      unfold absDiffEqZero f64Epsilon
      intro hc
      have := hc.1
      simp only [Vec3.add_x] at this
      rw [abs_of_nonneg (by norm_num)] at this
      have h52 : (1 / 2 ^ 52 : ℝ) < 1 := by norm_num
      linarith
    rw [if_neg hne]
    refine congrArg some (Prod.ext ?_ rfl)
    refine congrArg (Ray.mk ⟨0, 0, 0⟩) ?_
    apply Vec3.ext3 <;> norm_num
  · exact ((lambertian_scatter_spec ⟨1, 0, 0⟩ (Ray.mk ⟨0, 0, 0⟩ ⟨0, 0, -1⟩)
      { p := ⟨0, 0, 0⟩, normal := ⟨0, 0, 1⟩,
        material := Material.new_lambertian ⟨1, 0, 0⟩, t := 1,
        front_face := True } ⟨1 / 2, 0, 0⟩).2 hsample).1

/-- Claim C4 (counterexample): the spec describes `random_unit_vector` as the
normalization of a vector drawn uniformly from the unit sphere, under which
the unit vector `(-1, 0, 0)` is a possible value; but the code's rejection
sampler draws every coordinate from `Uniform(0.0..1.0)`, so no accepted
sample can normalize to `(-1, 0, 0)`. -/
theorem random_unit_vector_counterexample :
    specUnitSphereDrawNormalized ⟨-1, 0, 0⟩ ∧
    ∀ sample : Vec3, inUnitSphereSample sample →
      random_unit_vector sample ≠ ⟨-1, 0, 0⟩ := by
  constructor
  · refine ⟨⟨-(1 / 2), 0, 0⟩, by norm_num, ?_⟩
    unfold Vec3.normalize Vec3.length
    rw [show ((⟨-(1 / 2), 0, 0⟩ : Vec3).dot ⟨-(1 / 2), 0, 0⟩) = (1 / 2 : ℝ) ^ 2
      by norm_num, Real.sqrt_sq (by norm_num)]
    apply Vec3.ext3 <;> norm_num
  · intro sample hs heq
    have hx : 0 ≤ (random_unit_vector sample).x :=
      mul_nonneg (one_div_nonneg.mpr (Real.sqrt_nonneg _)) hs.1
    rw [heq] at hx
    norm_num at hx

/-- Claim C5: `Dielectric::scatter` never returns `none` and its attenuation
is always `(1,1,1)`; the refraction ratio is `1/η` when `front_face` holds
and `η` otherwise; whenever `ratio·sinθ > 1` (total internal reflection) or
the random draw falls below the Schlick reflectance, the scattered direction
is the mirror reflection of the normalized incoming direction, and otherwise
it is the Snell refraction decomposed into perpendicular and parallel
components. -/
theorem dielectric_scatter_spec (indexOfRefraction : ℝ) (ray : Ray)
    (record : HitRecord) (rnd : ℝ) :
    Dielectric.scatter indexOfRefraction ray record rnd =
      some (Ray.mk record.p
        (if refractionRatio indexOfRefraction record *
              dielectricSin ray record > 1 ∨
            schlickReflectance indexOfRefraction ray record > rnd
         then reflectDirection ray record
         else refractDirection indexOfRefraction ray record),
        (⟨1, 1, 1⟩ : Color)) ∧
    (refractionRatio indexOfRefraction record =
      if record.front_face then 1 / indexOfRefraction
      else indexOfRefraction) ∧
    (refractionRatio indexOfRefraction record * dielectricSin ray record > 1 →
      Dielectric.scatter indexOfRefraction ray record rnd =
        some (Ray.mk record.p (reflectDirection ray record),
          (⟨1, 1, 1⟩ : Color))) ∧
    (rnd < schlickReflectance indexOfRefraction ray record →
      Dielectric.scatter indexOfRefraction ray record rnd =
        some (Ray.mk record.p (reflectDirection ray record),
          (⟨1, 1, 1⟩ : Color))) ∧
    (¬ refractionRatio indexOfRefraction record *
        dielectricSin ray record > 1 →
      ¬ rnd < schlickReflectance indexOfRefraction ray record →
      Dielectric.scatter indexOfRefraction ray record rnd =
        some (Ray.mk record.p (refractDirection indexOfRefraction ray record),
          (⟨1, 1, 1⟩ : Color))) := by
  refine ⟨rfl, rfl, fun htir => ?_, fun hschlick => ?_, fun htir hschlick => ?_⟩
  · unfold Dielectric.scatter
    rw [if_pos (Or.inl htir)]
  · unfold Dielectric.scatter
    rw [if_pos (Or.inr hschlick)]
  · unfold Dielectric.scatter
    rw [if_neg (by push_neg; exact ⟨not_lt.mp htir, not_lt.mp hschlick⟩)]

theorem dielectric_scatter_spec_witness :
    Dielectric.scatter (3 / 2) (Ray.mk ⟨0, 0, 0⟩ ⟨4 / 5, 0, -(3 / 5)⟩)
        { p := ⟨0, 0, 0⟩, normal := ⟨0, 0, 1⟩,
          material := Material.new_dielectric (3 / 2), t := 1,
          front_face := False } (1 / 2) =
      some (Ray.mk ⟨0, 0, 0⟩
        (reflectDirection (Ray.mk ⟨0, 0, 0⟩ ⟨4 / 5, 0, -(3 / 5)⟩)
          { p := ⟨0, 0, 0⟩, normal := ⟨0, 0, 1⟩,
            material := Material.new_dielectric (3 / 2), t := 1,
            front_face := False }), (⟨1, 1, 1⟩ : Color)) ∧
    reflectDirection (Ray.mk ⟨0, 0, 0⟩ ⟨4 / 5, 0, -(3 / 5)⟩)
        { p := ⟨0, 0, 0⟩, normal := ⟨0, 0, 1⟩,
          material := Material.new_dielectric (3 / 2), t := 1,
          front_face := False } = ⟨4 / 5, 0, 3 / 5⟩ := by
  have hn : (⟨4 / 5, 0, -(3 / 5)⟩ : Vec3).normalize = ⟨4 / 5, 0, -(3 / 5)⟩ :=
    Vec3.normalize_of_unit (by norm_num)
  have hcos : dielectricCos (Ray.mk ⟨0, 0, 0⟩ ⟨4 / 5, 0, -(3 / 5)⟩)
      { p := ⟨0, 0, 0⟩, normal := ⟨0, 0, 1⟩,
        material := Material.new_dielectric (3 / 2), t := 1,
        front_face := False } = 3 / 5 := by
    unfold dielectricCos
    rw [show (Ray.mk (⟨0, 0, 0⟩ : Vec3) ⟨4 / 5, 0, -(3 / 5)⟩).direction =
      (⟨4 / 5, 0, -(3 / 5)⟩ : Vec3) from rfl, hn]
    norm_num
  have hsin : dielectricSin (Ray.mk ⟨0, 0, 0⟩ ⟨4 / 5, 0, -(3 / 5)⟩)
      { p := ⟨0, 0, 0⟩, normal := ⟨0, 0, 1⟩,
        material := Material.new_dielectric (3 / 2), t := 1,
        front_face := False } = 4 / 5 := by
    unfold dielectricSin
    rw [hcos, show (1 : ℝ) - 3 / 5 * (3 / 5) = (4 / 5) ^ 2 by norm_num,
      Real.sqrt_sq (by norm_num)]
  have hratio : refractionRatio (3 / 2)
      { p := ⟨0, 0, 0⟩, normal := ⟨0, 0, 1⟩,
        material := Material.new_dielectric (3 / 2), t := 1,
        front_face := False } = 3 / 2 := by
    unfold refractionRatio
    simp
  have htir : refractionRatio (3 / 2)
        { p := ⟨0, 0, 0⟩, normal := ⟨0, 0, 1⟩,
          material := Material.new_dielectric (3 / 2), t := 1,
          front_face := False } *
      dielectricSin (Ray.mk ⟨0, 0, 0⟩ ⟨4 / 5, 0, -(3 / 5)⟩)
        { p := ⟨0, 0, 0⟩, normal := ⟨0, 0, 1⟩,
          material := Material.new_dielectric (3 / 2), t := 1,
          front_face := False } > 1 := by
    rw [hratio, hsin]
    norm_num
  refine ⟨(dielectric_scatter_spec (3 / 2)
    (Ray.mk ⟨0, 0, 0⟩ ⟨4 / 5, 0, -(3 / 5)⟩)
    { p := ⟨0, 0, 0⟩, normal := ⟨0, 0, 1⟩,
      material := Material.new_dielectric (3 / 2), t := 1,
      front_face := False } (1 / 2)).2.2.1 htir, ?_⟩
  unfold reflectDirection
  rw [show (Ray.mk (⟨0, 0, 0⟩ : Vec3) ⟨4 / 5, 0, -(3 / 5)⟩).direction =
    (⟨4 / 5, 0, -(3 / 5)⟩ : Vec3) from rfl, hn]
  apply Vec3.ext3 <;> norm_num

theorem Vec3.dot_smul_right (a : Vec3) (c : ℝ) (b : Vec3) :
    a.dot (c • b) = c * a.dot b := by
  simp
  ring

theorem Vec3.dot_neg_right (a b : Vec3) : a.dot (-b) = -(a.dot b) := by
  simp
  ring

/-- Every successful `Sphere::hit` record is `hitRecordAt` evaluated at one
of the two quadratic roots. -/
theorem Sphere.hit_eq_cases {s : Sphere} {ray : Ray} {tRange : TRange}
    {record : HitRecord} (h : s.hit ray tRange = some record) :
    record = s.hitRecordAt ray (hitRoot1 s ray) ∨
    record = s.hitRecordAt ray (hitRoot2 s ray) := by
  unfold Sphere.hit at h
  split_ifs at h
  · exact Or.inl (Option.some.inj h).symm
  · exact Or.inr (Option.some.inj h).symm

/-- Orientation facts about the record built for an accepted root. -/
theorem Sphere.hitRecordAt_orientation (s : Sphere) (ray : Ray) (t₀ : ℝ) :
    ((s.hitRecordAt ray t₀).front_face ↔
      ray.direction.dot
        ((1 / s.radius) • ((s.hitRecordAt ray t₀).p - s.center)) < 0) ∧
    (s.hitRecordAt ray t₀).normal =
      (if (s.hitRecordAt ray t₀).front_face
       then (1 / s.radius) • ((s.hitRecordAt ray t₀).p - s.center)
       else -((1 / s.radius) • ((s.hitRecordAt ray t₀).p - s.center))) ∧
    ray.direction.dot (s.hitRecordAt ray t₀).normal ≤ 0 ∧
    (0 < s.radius →
      ((s.hitRecordAt ray t₀).front_face ↔
        ray.direction.dot ((s.hitRecordAt ray t₀).p - s.center) < 0)) := by
  have hp : (s.hitRecordAt ray t₀).p = ray.pointAt t₀ := rfl
  have hff : (s.hitRecordAt ray t₀).front_face =
      (ray.direction.dot ((1 / s.radius) • (ray.pointAt t₀ - s.center)) < 0) :=
    rfl
  have hnormal : (s.hitRecordAt ray t₀).normal =
      (if ray.direction.dot ((1 / s.radius) • (ray.pointAt t₀ - s.center)) < 0
       then (1 / s.radius) • (ray.pointAt t₀ - s.center)
       else -((1 / s.radius) • (ray.pointAt t₀ - s.center))) := rfl
  refine ⟨by rw [hff, hp], ?_, ?_, fun hr => ?_⟩
  · rw [hnormal, hff, hp]
  · rw [hnormal]
    by_cases hf :
      ray.direction.dot ((1 / s.radius) • (ray.pointAt t₀ - s.center)) < 0
    · rw [if_pos hf]
      exact hf.le
    · rw [if_neg hf, Vec3.dot_neg_right]
      have := not_lt.mp hf
      linarith
  · rw [hff, hp, Vec3.dot_smul_right]
    have h1r : 0 < 1 / s.radius := one_div_pos.mpr hr
    constructor
    · intro hlt
      by_contra hge
      push_neg at hge
      exact absurd (mul_nonneg h1r.le hge) (not_le.mpr hlt)
    · intro hlt
      exact mul_neg_of_pos_of_neg h1r hlt

/-- Claim C2 (amended): a successful `Sphere::hit` returns
`front_face = (direction · ((p - center) / radius) < 0)` — which for a
positive radius coincides with `direction · (p - center) < 0`, but is the
reverse test for a negative radius — the returned normal is
`(p - center) / radius` when `front_face` holds and its negation otherwise,
and the returned normal never forms an acute angle with the ray
direction. -/
theorem sphere_hit_front_face_spec (s : Sphere) (ray : Ray) (tRange : TRange)
    (record : HitRecord) (h : s.hit ray tRange = some record) :
    (record.front_face ↔
      ray.direction.dot ((1 / s.radius) • (record.p - s.center)) < 0) ∧
    record.normal = (if record.front_face
      then (1 / s.radius) • (record.p - s.center)
      else -((1 / s.radius) • (record.p - s.center))) ∧
    ray.direction.dot record.normal ≤ 0 ∧
    (0 < s.radius →
      (record.front_face ↔ ray.direction.dot (record.p - s.center) < 0)) := by
  obtain rfl | rfl := Sphere.hit_eq_cases h
  · exact s.hitRecordAt_orientation ray (hitRoot1 s ray)
  · exact s.hitRecordAt_orientation ray (hitRoot2 s ray)

theorem sphere_hit_front_face_spec_witness :
    Sphere.hit ⟨⟨0, 0, 0⟩, 1, Material.new_dielectric 1⟩
        (Ray.mk ⟨0, 0, -2⟩ ⟨0, 0, 1⟩) (rangeFrom 0.001) =
      some (Sphere.hitRecordAt ⟨⟨0, 0, 0⟩, 1, Material.new_dielectric 1⟩
        (Ray.mk ⟨0, 0, -2⟩ ⟨0, 0, 1⟩) 1) ∧
    ((Sphere.hitRecordAt ⟨⟨0, 0, 0⟩, 1, Material.new_dielectric 1⟩
        (Ray.mk ⟨0, 0, -2⟩ ⟨0, 0, 1⟩) 1).front_face ↔
      (Ray.mk (⟨0, 0, -2⟩ : Vec3) ⟨0, 0, 1⟩).direction.dot
        ((Sphere.hitRecordAt ⟨⟨0, 0, 0⟩, 1, Material.new_dielectric 1⟩
          (Ray.mk ⟨0, 0, -2⟩ ⟨0, 0, 1⟩) 1).p - ⟨0, 0, 0⟩) < 0) := by
  have hdisc : hitDiscriminant ⟨⟨0, 0, 0⟩, 1, Material.new_dielectric 1⟩
      (Ray.mk ⟨0, 0, -2⟩ ⟨0, 0, 1⟩) = 1 := by
    unfold hitDiscriminant hitA hitHalfB hitC
    norm_num
  have hroot : hitRoot1 ⟨⟨0, 0, 0⟩, 1, Material.new_dielectric 1⟩
      (Ray.mk ⟨0, 0, -2⟩ ⟨0, 0, 1⟩) = 1 := by
    unfold hitRoot1
    rw [hdisc, Real.sqrt_one]
    unfold hitHalfB hitA
    norm_num
  have heval : Sphere.hit ⟨⟨0, 0, 0⟩, 1, Material.new_dielectric 1⟩
      (Ray.mk ⟨0, 0, -2⟩ ⟨0, 0, 1⟩) (rangeFrom 0.001) =
      some (Sphere.hitRecordAt ⟨⟨0, 0, 0⟩, 1, Material.new_dielectric 1⟩
        (Ray.mk ⟨0, 0, -2⟩ ⟨0, 0, 1⟩) 1) := by
    unfold Sphere.hit
    rw [hdisc, hroot, if_neg (by norm_num),
      if_pos (show (rangeFrom 0.001).contains 1 by
        unfold rangeFrom
        norm_num)]
  exact ⟨heval,
    (sphere_hit_front_face_spec _ _ _ _ heval).2.2.2 (by norm_num)⟩

/-- Claim C2 (counterexample): for the sphere of radius -1 at the origin and
the ray from (0,0,-2) towards +z, `Sphere::hit` succeeds with
`front_face = false` even though `direction · (p - center) < 0` — the code
divides by the signed radius before the sign test, so the claimed formula
`front_face = (direction · (p - center) < 0)` fails for negative radii. -/
theorem sphere_hit_front_face_counterexample :
    Sphere.hit ⟨⟨0, 0, 0⟩, -1, Material.new_dielectric 1⟩
        (Ray.mk ⟨0, 0, -2⟩ ⟨0, 0, 1⟩) (rangeFrom 0.001) =
      some (Sphere.hitRecordAt ⟨⟨0, 0, 0⟩, -1, Material.new_dielectric 1⟩
        (Ray.mk ⟨0, 0, -2⟩ ⟨0, 0, 1⟩) 1) ∧
    ¬ (Sphere.hitRecordAt ⟨⟨0, 0, 0⟩, -1, Material.new_dielectric 1⟩
        (Ray.mk ⟨0, 0, -2⟩ ⟨0, 0, 1⟩) 1).front_face ∧
    (Ray.mk (⟨0, 0, -2⟩ : Vec3) ⟨0, 0, 1⟩).direction.dot
      ((Sphere.hitRecordAt ⟨⟨0, 0, 0⟩, -1, Material.new_dielectric 1⟩
        (Ray.mk ⟨0, 0, -2⟩ ⟨0, 0, 1⟩) 1).p - ⟨0, 0, 0⟩) < 0 := by
  have hdisc : hitDiscriminant ⟨⟨0, 0, 0⟩, -1, Material.new_dielectric 1⟩
      (Ray.mk ⟨0, 0, -2⟩ ⟨0, 0, 1⟩) = 1 := by
    unfold hitDiscriminant hitA hitHalfB hitC
    norm_num
  have hroot : hitRoot1 ⟨⟨0, 0, 0⟩, -1, Material.new_dielectric 1⟩
      (Ray.mk ⟨0, 0, -2⟩ ⟨0, 0, 1⟩) = 1 := by
    unfold hitRoot1
    rw [hdisc, Real.sqrt_one]
    unfold hitHalfB hitA
    norm_num
  refine ⟨?_, ?_, ?_⟩
  · unfold Sphere.hit
    rw [hdisc, hroot, if_neg (by norm_num),
      if_pos (show (rangeFrom 0.001).contains 1 by
        unfold rangeFrom
        norm_num)]
  · show ¬ ((Ray.mk (⟨0, 0, -2⟩ : Vec3) ⟨0, 0, 1⟩).direction.dot
      ((1 / (-1 : ℝ)) •
        ((Ray.mk (⟨0, 0, -2⟩ : Vec3) ⟨0, 0, 1⟩).pointAt 1 - ⟨0, 0, 0⟩)) < 0)
    unfold Ray.pointAt
    norm_num
  · show (Ray.mk (⟨0, 0, -2⟩ : Vec3) ⟨0, 0, 1⟩).direction.dot
      ((Ray.mk (⟨0, 0, -2⟩ : Vec3) ⟨0, 0, 1⟩).pointAt 1 - ⟨0, 0, 0⟩) < 0
    unfold Ray.pointAt
    norm_num

/-- Claim C3: `Sphere::hit` solves the quadratic with `a = d·d`,
`half_b = (o-c)·d`, `c = (o-c)·(o-c) - r²`; no hit when the discriminant is
negative; otherwise the smaller root `(-half_b - √disc)/a` is accepted when
it lies in the query interval, else the larger root `(-half_b + √disc)/a`
under the same test, else no hit.  For a ray aimed at the sphere's center
from outside (with the near root inside the query range), the returned `t`
is the near root and `front_face` holds. -/
theorem sphere_hit_roots_spec :
    (∀ (s : Sphere) (ray : Ray) (tRange : TRange),
      (hitDiscriminant s ray < 0 → s.hit ray tRange = none) ∧
      (0 ≤ hitDiscriminant s ray → tRange.contains (hitRoot1 s ray) →
        s.hit ray tRange = some (s.hitRecordAt ray (hitRoot1 s ray)) ∧
        (s.hitRecordAt ray (hitRoot1 s ray)).t = hitRoot1 s ray) ∧
      (0 ≤ hitDiscriminant s ray → ¬ tRange.contains (hitRoot1 s ray) →
        tRange.contains (hitRoot2 s ray) →
        s.hit ray tRange = some (s.hitRecordAt ray (hitRoot2 s ray)) ∧
        (s.hitRecordAt ray (hitRoot2 s ray)).t = hitRoot2 s ray) ∧
      (0 ≤ hitDiscriminant s ray → ¬ tRange.contains (hitRoot1 s ray) →
        ¬ tRange.contains (hitRoot2 s ray) → s.hit ray tRange = none)) ∧
    (∀ (center origin : Vec3) (radius tmin : ℝ) (material : Material),
      0 < radius →
      radius * radius < (origin - center).dot (origin - center) →
      tmin ≤ hitRoot1 ⟨center, radius, material⟩
        (Ray.mk origin (center - origin)) →
      Sphere.hit ⟨center, radius, material⟩ (Ray.mk origin (center - origin))
          (rangeFrom tmin) =
        some (Sphere.hitRecordAt ⟨center, radius, material⟩
          (Ray.mk origin (center - origin))
          (hitRoot1 ⟨center, radius, material⟩
            (Ray.mk origin (center - origin)))) ∧
      (Sphere.hitRecordAt ⟨center, radius, material⟩
        (Ray.mk origin (center - origin))
        (hitRoot1 ⟨center, radius, material⟩
          (Ray.mk origin (center - origin)))).t =
        hitRoot1 ⟨center, radius, material⟩
          (Ray.mk origin (center - origin)) ∧
      (Sphere.hitRecordAt ⟨center, radius, material⟩
        (Ray.mk origin (center - origin))
        (hitRoot1 ⟨center, radius, material⟩
          (Ray.mk origin (center - origin)))).front_face) := by
  constructor
  · intro s ray tRange
    refine ⟨fun h => ?_, fun h1 h2 => ⟨?_, rfl⟩, fun h1 h2 h3 => ⟨?_, rfl⟩,
      fun h1 h2 h3 => ?_⟩
    · unfold Sphere.hit
      rw [if_pos h]
    · unfold Sphere.hit
      rw [if_neg (not_lt.mpr h1), if_pos h2]
    · unfold Sphere.hit
      rw [if_neg (not_lt.mpr h1), if_neg h2, if_pos h3]
    · unfold Sphere.hit
      rw [if_neg (not_lt.mpr h1), if_neg h2, if_neg h3]
  · intro center origin radius tmin material hr hout htmin
    have hQ : 0 < (origin - center).dot (origin - center) :=
      lt_trans (mul_pos hr hr) hout
    have hdisc : hitDiscriminant ⟨center, radius, material⟩
        (Ray.mk origin (center - origin)) =
        ((origin - center).dot (origin - center)) * (radius * radius) := by
      unfold hitDiscriminant hitA hitHalfB hitC
      simp
      ring
    have hdiscpos : 0 < hitDiscriminant ⟨center, radius, material⟩
        (Ray.mk origin (center - origin)) := by
      rw [hdisc]
      exact mul_pos hQ (mul_pos hr hr)
    have hsqrt : 0 < Real.sqrt (hitDiscriminant ⟨center, radius, material⟩
        (Ray.mk origin (center - origin))) := Real.sqrt_pos.mpr hdiscpos
    have ha : hitA ⟨center, radius, material⟩
        (Ray.mk origin (center - origin)) =
        (origin - center).dot (origin - center) := by
      unfold hitA
      simp
      ring
    have hb : hitHalfB ⟨center, radius, material⟩
        (Ray.mk origin (center - origin)) =
        -((origin - center).dot (origin - center)) := by
      unfold hitHalfB
      simp
      ring
    have hR1 : hitRoot1 ⟨center, radius, material⟩
        (Ray.mk origin (center - origin)) =
        ((origin - center).dot (origin - center) -
          Real.sqrt (hitDiscriminant ⟨center, radius, material⟩
            (Ray.mk origin (center - origin)))) /
          ((origin - center).dot (origin - center)) := by
      unfold hitRoot1
      rw [ha, hb]
      ring_nf
    have expand : ∀ tt : ℝ,
        (Ray.mk origin (center - origin)).direction.dot
          ((Ray.mk origin (center - origin)).pointAt tt - center) =
        -((origin - center).dot (origin - center)) +
          tt * ((origin - center).dot (origin - center)) := by
      intro tt
      unfold Ray.pointAt
      simp
      ring
    have hdp : (Ray.mk origin (center - origin)).direction.dot
        ((Ray.mk origin (center - origin)).pointAt
          (hitRoot1 ⟨center, radius, material⟩
            (Ray.mk origin (center - origin))) - center) =
        -Real.sqrt (hitDiscriminant ⟨center, radius, material⟩
          (Ray.mk origin (center - origin))) := by
      rw [expand, hR1, div_mul_cancel₀ _ (ne_of_gt hQ)]
      ring
    refine ⟨?_, rfl, ?_⟩
    · unfold Sphere.hit
      rw [if_neg (not_lt.mpr hdiscpos.le),
        if_pos (show (rangeFrom tmin).contains _ from htmin)]
    · show (Ray.mk origin (center - origin)).direction.dot
        ((1 / radius) •
          ((Ray.mk origin (center - origin)).pointAt
            (hitRoot1 ⟨center, radius, material⟩
              (Ray.mk origin (center - origin))) - center)) < 0
      rw [Vec3.dot_smul_right, hdp]
      exact mul_neg_of_pos_of_neg (one_div_pos.mpr hr)
        (neg_lt_zero.mpr hsqrt)

theorem sphere_hit_roots_spec_witness :
    Sphere.hit ⟨⟨0, 0, 0⟩, 1, Material.new_dielectric 1⟩
        (Ray.mk ⟨0, 0, 3⟩ ((⟨0, 0, 0⟩ : Vec3) - ⟨0, 0, 3⟩))
        (rangeFrom 0.001) =
      some (Sphere.hitRecordAt ⟨⟨0, 0, 0⟩, 1, Material.new_dielectric 1⟩
        (Ray.mk ⟨0, 0, 3⟩ ((⟨0, 0, 0⟩ : Vec3) - ⟨0, 0, 3⟩))
        (hitRoot1 ⟨⟨0, 0, 0⟩, 1, Material.new_dielectric 1⟩
          (Ray.mk ⟨0, 0, 3⟩ ((⟨0, 0, 0⟩ : Vec3) - ⟨0, 0, 3⟩)))) ∧
    (Sphere.hitRecordAt ⟨⟨0, 0, 0⟩, 1, Material.new_dielectric 1⟩
      (Ray.mk ⟨0, 0, 3⟩ ((⟨0, 0, 0⟩ : Vec3) - ⟨0, 0, 3⟩))
      (hitRoot1 ⟨⟨0, 0, 0⟩, 1, Material.new_dielectric 1⟩
        (Ray.mk ⟨0, 0, 3⟩ ((⟨0, 0, 0⟩ : Vec3) - ⟨0, 0, 3⟩)))).t =
      hitRoot1 ⟨⟨0, 0, 0⟩, 1, Material.new_dielectric 1⟩
        (Ray.mk ⟨0, 0, 3⟩ ((⟨0, 0, 0⟩ : Vec3) - ⟨0, 0, 3⟩)) ∧
    (Sphere.hitRecordAt ⟨⟨0, 0, 0⟩, 1, Material.new_dielectric 1⟩
      (Ray.mk ⟨0, 0, 3⟩ ((⟨0, 0, 0⟩ : Vec3) - ⟨0, 0, 3⟩))
      (hitRoot1 ⟨⟨0, 0, 0⟩, 1, Material.new_dielectric 1⟩
        (Ray.mk ⟨0, 0, 3⟩ ((⟨0, 0, 0⟩ : Vec3) - ⟨0, 0, 3⟩)))).front_face := by
  have hdisc : hitDiscriminant ⟨⟨0, 0, 0⟩, 1, Material.new_dielectric 1⟩
      (Ray.mk ⟨0, 0, 3⟩ ((⟨0, 0, 0⟩ : Vec3) - ⟨0, 0, 3⟩)) = 9 := by
    unfold hitDiscriminant hitA hitHalfB hitC
    norm_num
  have hroot : hitRoot1 ⟨⟨0, 0, 0⟩, 1, Material.new_dielectric 1⟩
      (Ray.mk ⟨0, 0, 3⟩ ((⟨0, 0, 0⟩ : Vec3) - ⟨0, 0, 3⟩)) = 2 / 3 := by
    unfold hitRoot1
    rw [hdisc, realSqrtEval (show (0 : ℝ) ≤ 3 by norm_num)
      (show (3 : ℝ) ^ 2 = 9 by norm_num)]
    unfold hitHalfB hitA
    norm_num
  exact sphere_hit_roots_spec.2 ⟨0, 0, 0⟩ ⟨0, 0, 3⟩ 1 0.001
    (Material.new_dielectric 1) (by norm_num) (by norm_num)
    (by rw [hroot]; norm_num)

theorem minByFold_t_le (a b : HitRecord) :
    (minByFold a b).t ≤ a.t ∧ (minByFold a b).t ≤ b.t := by
  unfold minByFold
  split_ifs with h
  · exact ⟨h.le, le_refl _⟩
  · exact ⟨le_refl _, not_lt.mp h⟩

/-- The accumulator fold of `min_by` over a nonempty tail picks the tail's
first-minimum when it beats the accumulator strictly, else the accumulator. -/
theorem foldl_minByFold_cons (t : List HitRecord) : ∀ y r : HitRecord,
    (y :: t).foldl minByFold r =
      (if (t.foldl minByFold y).t < r.t then t.foldl minByFold y else r) := by
  induction t with
  | nil =>
    intro y r
    rfl
  | cons b t' ih =>
    intro y r
    show (b :: t').foldl minByFold (minByFold r y) = _
    rw [ih b (minByFold r y), ih b y]
    unfold minByFold
    split_ifs <;> first | rfl | (exfalso; linarith)

theorem foldl_minByFold_le (t : List HitRecord) : ∀ h : HitRecord,
    (t.foldl minByFold h).t ≤ h.t ∧
    ∀ x ∈ t, (t.foldl minByFold h).t ≤ x.t := by
  induction t with
  | nil =>
    intro h
    simp
  | cons b t' ih =>
    intro h
    have hib := ih (minByFold h b)
    have hmb := minByFold_t_le h b
    refine ⟨le_trans hib.1 hmb.1, fun x hx => ?_⟩
    rcases List.mem_cons.mp hx with rfl | hx'
    · exact le_trans hib.1 hmb.2
    · exact hib.2 x hx'

/-- Claim C6: the aggregate hit over a collection returns the member hit of
minimum `t` among all per-member hits (`none` exactly when every member
misses), and a tie on `t` is won by the earlier member in iteration
order. -/
theorem list_hit_nearest_spec {H : Type}
    (hitF : H → Ray → TRange → Option HitRecord) (hittables : List H)
    (ray : Ray) (tRange : TRange) :
    (listHit hitF hittables ray tRange = none ↔
      ∀ h ∈ hittables, hitF h ray tRange = none) ∧
    (∀ record, listHit hitF hittables ray tRange = some record →
      (∀ h ∈ hittables, ∀ r, hitF h ray tRange = some r → record.t ≤ r.t) ∧
      ∃ pre hit post, hittables = pre ++ hit :: post ∧
        hitF hit ray tRange = some record ∧
        ∀ h ∈ pre, ∀ r, hitF h ray tRange = some r → record.t < r.t) := by
  induction hittables with
  | nil =>
    constructor
    · simp [listHit, minByFirst]
    · intro record h
      simp [listHit, minByFirst] at h
  | cons a l ih =>
    cases hf : hitF a ray tRange with
    | none =>
      have hfm : (a :: l).filterMap (fun h => hitF h ray tRange) =
          l.filterMap (fun h => hitF h ray tRange) := by
        simp [List.filterMap_cons, hf]
      have heq : listHit hitF (a :: l) ray tRange =
          listHit hitF l ray tRange := by
        unfold listHit
        rw [hfm]
      constructor
      · rw [heq, ih.1]
        constructor
        · intro hall h hm
          rcases List.mem_cons.mp hm with rfl | hm'
          · exact hf
          · exact hall h hm'
        · intro hall h hm
          exact hall h (List.mem_cons_of_mem a hm)
      · intro record hrec
        rw [heq] at hrec
        obtain ⟨hmin, pre, hit, post, hsplit, hhit, hpre⟩ := ih.2 record hrec
        refine ⟨?_, a :: pre, hit, post, by rw [hsplit]; rfl, hhit, ?_⟩
        · intro h hm r hr
          rcases List.mem_cons.mp hm with rfl | hm'
          · rw [hf] at hr
            exact absurd hr (by simp)
          · exact hmin h hm' r hr
        · intro h hm r hr
          rcases List.mem_cons.mp hm with rfl | hm'
          · rw [hf] at hr
            exact absurd hr (by simp)
          · exact hpre h hm' r hr
    | some r0 =>
      have hfm : (a :: l).filterMap (fun h => hitF h ray tRange) =
          r0 :: l.filterMap (fun h => hitF h ray tRange) := by
        simp [List.filterMap_cons, hf]
      cases hl : l.filterMap (fun h => hitF h ray tRange) with
      | nil =>
        have hnone : listHit hitF l ray tRange = none := by
          unfold listHit
          rw [hl]
          rfl
        have hlmiss : ∀ h ∈ l, hitF h ray tRange = none := (ih.1).mp hnone
        have heq : listHit hitF (a :: l) ray tRange = some r0 := by
          unfold listHit
          rw [hfm, hl]
          rfl
        constructor
        · rw [heq]
          constructor
          · intro hc
            exact absurd hc (by simp)
          · intro hall
            have := hall a (List.mem_cons_self a l)
            rw [hf] at this
            exact absurd this (by simp)
        · intro record hrec
          rw [heq, Option.some.injEq] at hrec
          subst hrec
          refine ⟨?_, [], a, l, rfl, hf, by simp⟩
          intro h hm rr hr
          rcases List.mem_cons.mp hm with rfl | hm'
          · rw [hf, Option.some.injEq] at hr
            subst hr
            exact le_refl _
          · rw [hlmiss h hm'] at hr
            exact absurd hr (by simp)
      | cons y tl =>
        have hm0 : listHit hitF l ray tRange =
            some (tl.foldl minByFold y) := by
          unfold listHit
          rw [hl]
          rfl
        obtain ⟨hminl, prel, hitl, postl, hsplitl, hhitl, hprel⟩ :=
          ih.2 _ hm0
        have hkey : listHit hitF (a :: l) ray tRange =
            some (if (tl.foldl minByFold y).t < r0.t
              then tl.foldl minByFold y else r0) := by
          unfold listHit
          rw [hfm, hl]
          show some ((y :: tl).foldl minByFold r0) = _
          rw [foldl_minByFold_cons]
        by_cases hc : (tl.foldl minByFold y).t < r0.t
        · rw [if_pos hc] at hkey
          constructor
          · rw [hkey]
            constructor
            · intro h0
              exact absurd h0 (by simp)
            · intro hall
              have := hall a (List.mem_cons_self a l)
              rw [hf] at this
              exact absurd this (by simp)
          · intro record hrec
            rw [hkey, Option.some.injEq] at hrec
            subst hrec
            refine ⟨?_, a :: prel, hitl, postl, by rw [hsplitl]; rfl,
              hhitl, ?_⟩
            · intro h hm rr hr
              rcases List.mem_cons.mp hm with rfl | hm'
              · rw [hf, Option.some.injEq] at hr
                subst hr
                exact hc.le
              · exact hminl h hm' rr hr
            · intro h hm rr hr
              rcases List.mem_cons.mp hm with rfl | hm'
              · rw [hf, Option.some.injEq] at hr
                subst hr
                exact hc
              · exact hprel h hm' rr hr
        · rw [if_neg hc] at hkey
          push_neg at hc
          constructor
          · rw [hkey]
            constructor
            · intro h0
              exact absurd h0 (by simp)
            · intro hall
              have := hall a (List.mem_cons_self a l)
              rw [hf] at this
              exact absurd this (by simp)
          · intro record hrec
            rw [hkey, Option.some.injEq] at hrec
            subst hrec
            refine ⟨?_, [], a, l, rfl, hf, by simp⟩
            intro h hm rr hr
            rcases List.mem_cons.mp hm with rfl | hm'
            · rw [hf, Option.some.injEq] at hr
              subst hr
              exact le_refl _
            · exact le_trans hc (hminl h hm' rr hr)

theorem list_hit_nearest_spec_witness :
    listHit (fun o _ _ => o)
        [none,
         some ⟨⟨0, 0, 0⟩, ⟨0, 0, 1⟩, Material.new_dielectric 1, 5, True⟩,
         some ⟨⟨1, 0, 0⟩, ⟨0, 0, 1⟩, Material.new_dielectric 1, 5, True⟩]
        (Ray.mk ⟨0, 0, 0⟩ ⟨0, 0, 1⟩) (rangeFrom 0) =
      some ⟨⟨0, 0, 0⟩, ⟨0, 0, 1⟩, Material.new_dielectric 1, 5, True⟩ ∧
    (⟨⟨0, 0, 0⟩, ⟨0, 0, 1⟩, Material.new_dielectric 1, 5,
      True⟩ : HitRecord).t ≤
      (⟨⟨1, 0, 0⟩, ⟨0, 0, 1⟩, Material.new_dielectric 1, 5,
        True⟩ : HitRecord).t := by
  have heval : listHit (fun o _ _ => o)
      [none,
       some ⟨⟨0, 0, 0⟩, ⟨0, 0, 1⟩, Material.new_dielectric 1, 5, True⟩,
       some ⟨⟨1, 0, 0⟩, ⟨0, 0, 1⟩, Material.new_dielectric 1, 5, True⟩]
      (Ray.mk ⟨0, 0, 0⟩ ⟨0, 0, 1⟩) (rangeFrom 0) =
      some ⟨⟨0, 0, 0⟩, ⟨0, 0, 1⟩, Material.new_dielectric 1, 5, True⟩ := by
    show some (minByFold
      ⟨⟨0, 0, 0⟩, ⟨0, 0, 1⟩, Material.new_dielectric 1, 5, True⟩
      ⟨⟨1, 0, 0⟩, ⟨0, 0, 1⟩, Material.new_dielectric 1, 5, True⟩) = _
    unfold minByFold
    rw [if_neg (by norm_num)]
  refine ⟨heval, ?_⟩
  exact ((list_hit_nearest_spec (fun o _ _ => o) _ _ _).2 _ heval).1
    (some ⟨⟨1, 0, 0⟩, ⟨0, 0, 1⟩, Material.new_dielectric 1, 5, True⟩)
    (by simp) _ rfl

/-- Claim C7: a ray that hits nothing in `[0.001, ∞)`, traced with positive
depth, returns exactly the sky gradient
`(1-t)·(1,1,1) + t·(0.5,0.7,1.0)` with `t = (unit_direction.y + 1)/2`. -/
theorem ray_color_sky_spec {W : Type}
    (hitF : W → Ray → TRange → Option HitRecord) (world : W)
    (rng : ℕ → RandomInput) (ray : Ray) (depth k : ℕ)
    (hmiss : hitF world ray (rangeFrom 0.001) = none) (hdepth : 0 < depth) :
    rayColor hitF world rng ray depth k =
      ((1 : ℝ) - (ray.direction.normalize.y + 1) / 2) • (⟨1, 1, 1⟩ : Color) +
        ((ray.direction.normalize.y + 1) / 2) •
          (⟨1 / 2, 7 / 10, 1⟩ : Color) := by
  obtain ⟨d, rfl⟩ : ∃ d, depth = d + 1 :=
    ⟨depth - 1, (Nat.succ_pred_eq_of_pos hdepth).symm⟩
  simp only [rayColor, rayColorStack, hmiss, List.foldr]
  rw [Vec3.mulElementWise_one]
  rfl

theorem ray_color_sky_spec_witness :
    rayColor (listHit Sphere.hit) ([] : List Sphere)
        (fun _ => ⟨⟨0, 0, 0⟩, 0⟩) (Ray.mk ⟨0, 0, 0⟩ ⟨0, 1, 0⟩) 5 0 =
      ⟨1 / 2, 7 / 10, 1⟩ := by
  have hmiss : listHit Sphere.hit ([] : List Sphere)
      (Ray.mk ⟨0, 0, 0⟩ ⟨0, 1, 0⟩) (rangeFrom 0.001) = none := rfl
  rw [ray_color_sky_spec (listHit Sphere.hit) ([] : List Sphere)
    (fun _ => ⟨⟨0, 0, 0⟩, 0⟩) (Ray.mk ⟨0, 0, 0⟩ ⟨0, 1, 0⟩) 5 0 hmiss
    (by norm_num)]
  rw [show (Ray.mk (⟨0, 0, 0⟩ : Vec3) ⟨0, 1, 0⟩).direction =
    (⟨0, 1, 0⟩ : Vec3) from rfl]
  rw [Vec3.normalize_of_unit
    (show (⟨0, 1, 0⟩ : Vec3).dot ⟨0, 1, 0⟩ = 1 by norm_num)]
  apply Vec3.ext3 <;> norm_num

/-- Claim C8: the iterative integrator of src/main.rs (explicit stack of
attenuations folded from the right by element-wise product) is extensionally
equal to the recursive formulation of the spec: black at depth 0 or on
absorption, the sky color on a miss, and
`attenuation ⊙ trace(scattered, depth - 1)` on a scatter. -/
theorem ray_color_iterative_eq_recursive {W : Type}
    (hitF : W → Ray → TRange → Option HitRecord) (world : W)
    (rng : ℕ → RandomInput) (ray : Ray) (depth k : ℕ) :
    rayColor hitF world rng ray depth k =
      traceRec hitF world rng ray depth k := by
  induction depth generalizing ray k with
  | zero =>
    simp only [rayColor, rayColorStack, traceRec, List.foldr]
    rw [Vec3.mulElementWise_one]
  | succ d ih =>
    cases hh : hitF world ray (rangeFrom 0.001) with
    | none =>
      simp only [rayColor, rayColorStack, traceRec, hh, List.foldr]
      rw [Vec3.mulElementWise_one]
    | some record =>
      cases hs : record.material.scatter ray record (rng k) with
      | none =>
        simp only [rayColor, rayColorStack, traceRec, hh, hs, List.foldr]
        rw [Vec3.mulElementWise_one]
      | some pair =>
        obtain ⟨scattered, attenuation⟩ := pair
        simp only [rayColor, rayColorStack, traceRec, hh, hs, List.foldr]
        rw [← ih scattered (k + 1)]
        rfl

end
